import Mathlib

/-!
Verification of the simple op-heads store (src/lib/src/simple_op_heads_store.rs).

The store keeps the set of current heads of the operation log as a directory of
zero-content marker files, each named by the lowercase hex rendering of an
operation id.  This file embeds the store's operations shallowly:

* the op-heads directory is the list of entry names it holds (`Dir`);
* the external record store is a finite association list (`OpStore`);
* `get_heads` is modelled as a pure function over two directory listings, one
  taken before acquiring the lock and one after, since another process may
  mutate the directory while this call waits on the lock;
* a failed `.unwrap()` in the source is modelled as the distinguished
  `GetHeadsOutcome.panicked` outcome.

The generic DAG-walk heads primitive (`dag_walk::heads`) is not part of the
sources; it is modelled from the spec where noted.
-/

namespace SimpleOpHeads

/-- A byte of an operation id (one element of the `Vec<u8>` in the source). -/
abbrev Byte := Fin 256

/-- Operation ids are opaque byte strings (`OperationId::new(Vec<u8>)`). -/
abbrev OperationId := List Byte

/-- A file name inside the op-heads directory, as its list of characters. -/
abbrev FileName := List Char

/-- The op-heads directory: the list of entry names it currently holds. -/
abbrev Dir := List FileName

/-- Mirror of the timestamp in operation metadata:
`Timestamp { timestamp: MillisSinceEpoch(i64), tz_offset: i32 }`. -/
structure Timestamp where
  timestamp : Int
  tz_offset : Int
deriving DecidableEq, Repr

/-- Operation metadata; only the end timestamp is consulted by this store
(the remaining metadata fields never influence its behaviour). -/
structure OperationMetadata where
  end_time : Timestamp
deriving DecidableEq, Repr

/-- The record stored for one operation: its parent ids and metadata (the view
id is never consulted by this store and is omitted). -/
structure StoreOperation where
  parents : List OperationId
  metadata : OperationMetadata
deriving DecidableEq, Repr

/-- An operation as handled after fetching: its id together with its record. -/
structure Operation where
  id : OperationId
  data : StoreOperation
deriving DecidableEq, Repr

/-- The external operation record store, as a finite association list from ids
to records. -/
abbrev OpStore := List (OperationId × StoreOperation)

/-- Mirror of `read_operation` as a lookup in the association list. -/
def lookupOp : OpStore → OperationId → Option StoreOperation
  | [], _ => none
  | (k, v) :: rest, id => if k = id then some v else lookupOp rest id

/-- Lowercase hex digit character for a value below 16 (the `hex::encode`
output alphabet). -/
def hexDigitChar (n : Nat) : Char :=
  if n < 10 then Char.ofNat (48 + n) else Char.ofNat (87 + n)

/-- The two lowercase hex characters of one byte. -/
def byteHex (n : Nat) : List Char :=
  [hexDigitChar (n / 16 % 16), hexDigitChar (n % 16)]

/-- Mirror of `OperationId::hex()`: lowercase hex rendering of the id bytes. -/
def hexEncode (id : OperationId) : FileName :=
  id.flatMap (fun b => byteHex b.val)

/-- Numeric value of one hex digit character; both cases are accepted, exactly
as `hex::decode` accepts them. -/
def hexVal (c : Char) : Option (Fin 16) :=
  if h : 48 ≤ c.toNat ∧ c.toNat ≤ 57 then some ⟨c.toNat - 48, by omega⟩
  else if h2 : 97 ≤ c.toNat ∧ c.toNat ≤ 102 then some ⟨c.toNat - 87, by omega⟩
  else if h3 : 65 ≤ c.toNat ∧ c.toNat ≤ 70 then some ⟨c.toNat - 55, by omega⟩
  else none

/-- Mirror of `hex::decode` on a file name: the name must have even length and
every character must be a hex digit, otherwise decoding fails. -/
def hexDecode : FileName → Option OperationId
  | [] => some []
  | [_] => none
  | c1 :: c2 :: rest =>
    match hexVal c1, hexVal c2, hexDecode rest with
    | some hi, some lo, some bs =>
      some (⟨hi.val * 16 + lo.val, by have := hi.isLt; have := lo.isLt; omega⟩ :: bs)
    | _, _, _ => none

/-- Mirror of `add_op_head`: `fs::write(self.dir.join(id.hex()), "")` creates
the marker entry; when the entry already exists the directory listing is
unchanged. -/
def add_op_head (dir : Dir) (id : OperationId) : Dir :=
  if hexEncode id ∈ dir then dir else dir ++ [hexEncode id]

/-- Mirror of `fs::remove_file`: deletes the named entry, failing when it is
absent. -/
def removeFile (dir : Dir) (name : FileName) : Except Unit Dir :=
  if name ∈ dir then .ok (dir.filter (fun n => decide (n ≠ name))) else .error ()

/-- Mirror of `remove_op_head`: the `.ok()` in the source discards a removal
failure, so an absent marker leaves the directory unchanged and raises
nothing. -/
def remove_op_head (dir : Dir) (id : OperationId) : Dir :=
  match removeFile dir (hexEncode id) with
  | .ok d => d
  | .error _ => dir

/-- The reserved lock file name (`self.store.dir.join("lock")`). -/
def lockFileName : FileName := ['l', 'o', 'c', 'k']

/-- The directory-walking loop of `get_op_heads`: push every entry name that
hex-decodes, skip the rest. -/
def getOpHeadsLoop : Dir → List OperationId → List OperationId
  | [], acc => acc
  | name :: rest, acc =>
    match hexDecode name with
    | some id => getOpHeadsLoop rest (acc ++ [id])
    | none => getOpHeadsLoop rest acc

/-- Mirror of `get_op_heads`: walk the directory entries, collecting every name
that decodes as hex into an operation id. -/
def get_op_heads (dir : Dir) : List OperationId :=
  getOpHeadsLoop dir []

/-- Parent ids of an id as traversed through the record store; an id with no
record contributes no parents. -/
def parentsOf (st : OpStore) (id : OperationId) : List OperationId :=
  match lookupOp st id with
  | some d => d.parents
  | none => []

/-- One parent-traversal step over a frontier of ids. -/
def expandFrontier (st : OpStore) (frontier : List OperationId) : List OperationId :=
  frontier.flatMap (parentsOf st)

/-- All ids reachable from the frontier in between 1 and fuel parent steps. -/
def ancestorsFuel (st : OpStore) : Nat → List OperationId → List OperationId
  | 0, _ => []
  | n + 1, frontier => expandFrontier st frontier ++ ancestorsFuel st n (expandFrontier st frontier)

/-- Modelled from the spec: the ancestors of one operation "via repeated parent
traversal" (section 4.3).  dag_walk.rs is not among the sources; fuel equal to
the store size covers every parent path whose traversed records live in the
store, since on a DAG such paths never repeat a record. -/
def ancestorIds (st : OpStore) (id : OperationId) : List OperationId :=
  ancestorsFuel st st.length [id]

/-- First-occurrence deduplication by operation id ("using each operation's id
for uniqueness"). -/
def dedupById : List Operation → List Operation
  | [] => []
  | op :: rest => op :: (dedupById rest).filter (fun o => decide (o.id ≠ op.id))

/-- The head predicate of the DAG walk: the operation is not reachable as an
ancestor of any other operation of the list. -/
def headsPred (st : OpStore) (u : List Operation) (op : Operation) : Prop :=
  ∀ other ∈ u, other.id ≠ op.id → op.id ∉ ancestorIds st other.id

instance (st : OpStore) (u : List Operation) (op : Operation) :
    Decidable (headsPred st u op) := by
  unfold headsPred
  infer_instance

/-- Modelled from the spec: the generic `dag_walk::heads` primitive (not among
the sources) — "given a list of Operations, produce the sublist of those not
reachable as an ancestor (via repeated parent traversal) of any other operation
in the same list, using each operation's id for uniqueness and its parent-id
list as the adjacency function" (section 4.3). -/
def dagWalkHeads (st : OpStore) (ops : List Operation) : List Operation :=
  (dedupById ops).filter (fun op => decide (headsPred st (dedupById ops) op))

/-- Mirror of `handle_ancestor_ops`: prune ancestors with the DAG-walk heads
primitive, then delete from disk the marker of every id present in the input
but absent from the output. -/
def handle_ancestor_ops (st : OpStore) (dir : Dir) (op_heads : List Operation) :
    List Operation × Dir :=
  (dagWalkHeads st op_heads,
    ((op_heads.map Operation.id).filter
        (fun id => decide (id ∉ (dagWalkHeads st op_heads).map Operation.id))).foldl
      remove_op_head dir)

/-- The sort key of the final `sort_by_key`: `metadata.end_time.timestamp`. -/
def endKey (op : Operation) : Int :=
  op.data.metadata.end_time.timestamp

/-- Stable insertion of one operation into a list sorted by ascending end
timestamp. -/
def insertByEnd (x : Operation) : List Operation → List Operation
  | [] => [x]
  | y :: ys => if endKey x ≤ endKey y then x :: y :: ys else y :: insertByEnd x ys

/-- Mirror of the stable ascending `sort_by_key` on the end timestamp. -/
def sortByEndTime : List Operation → List Operation
  | [] => []
  | x :: xs => insertByEnd x (sortByEndTime xs)

/-- Mirror of `SimpleOpHeadsStoreLockResolver::finish`: add the new operation's
id as a head, then remove each of its parent ids. -/
def finish (dir : Dir) (new_op : Operation) : Dir :=
  new_op.data.parents.foldl remove_op_head (add_op_head dir new_op.id)

/-- Mirror of `OpHeadResolutionError`; `NoHeads` is the only variant the
source constructs. -/
inductive OpHeadResolutionError where
  | noHeads
deriving DecidableEq, Repr

/-- How one `get_heads` call ends.  `panicked` models the `.unwrap()` of a
failed `read_operation`: the call dies without producing an error value. -/
inductive GetHeadsOutcome where
  | err (e : OpHeadResolutionError)
  | panicked (id : OperationId)
  | single (op : Operation)
  | unresolved (op_heads : List Operation)
deriving DecidableEq, Repr

/-- Result of one `get_heads` call: its outcome, the op-heads directory as the
call leaves it, and whether the lock was acquired. -/
structure GetHeadsResult where
  outcome : GetHeadsOutcome
  dirAfter : Dir
  lockAcquired : Bool
deriving DecidableEq, Repr

/-- Read every id from the record store in order, stopping at the first missing
record (where the source panics on `.unwrap()`). -/
def fetchOps (st : OpStore) : List OperationId → Except OperationId (List Operation)
  | [] => .ok []
  | id :: rest =>
    match lookupOp st id with
    | none => .error id
    | some d =>
      match fetchOps st rest with
      | .ok ops => .ok (⟨id, d⟩ :: ops)
      | .error e => .error e

/-- Mirror of `SimpleOpHeadsStore::get_heads`.  The directory is enumerated
once before taking the lock (`preDir`) and once after (`postDir`); the two
listings may differ when another process mutates the set while this call waits
on the lock. -/
def get_heads (st : OpStore) (preDir postDir : Dir) : GetHeadsResult :=
  match get_op_heads preDir with
  | [] => { outcome := .err .noHeads, dirAfter := preDir, lockAcquired := false }
  | [operation_id] =>
    match lookupOp st operation_id with
    | some data =>
      { outcome := .single ⟨operation_id, data⟩, dirAfter := preDir, lockAcquired := false }
    | none => { outcome := .panicked operation_id, dirAfter := preDir, lockAcquired := false }
  | _ :: _ :: _ =>
    match get_op_heads postDir with
    | [] => { outcome := .err .noHeads, dirAfter := postDir, lockAcquired := true }
    | [op_head_id] =>
      match lookupOp st op_head_id with
      | some data =>
        { outcome := .single ⟨op_head_id, data⟩, dirAfter := postDir, lockAcquired := true }
      | none => { outcome := .panicked op_head_id, dirAfter := postDir, lockAcquired := true }
    | id0 :: id1 :: ids =>
      match fetchOps st (id0 :: id1 :: ids) with
      | .error id => { outcome := .panicked id, dirAfter := postDir, lockAcquired := true }
      | .ok ops =>
        match handle_ancestor_ops st postDir ops with
        | (survivors, dir2) =>
          match survivors with
          | [op] => { outcome := .single op, dirAfter := dir2, lockAcquired := true }
          | others =>
            { outcome := .unresolved (sortByEndTime others), dirAfter := dir2,
              lockAcquired := true }

/-- One side effect of the migration loop in `load`. -/
inductive MigEvent where
  | removeOld (id : OperationId)
  | addNew (id : OperationId)
deriving DecidableEq, Repr

/-- The old flat layout and the new subdirectory layout during `load`. -/
structure MigState where
  old : Dir
  new : Dir
deriving DecidableEq, Repr

/-- Apply one migration side effect to the pair of layouts. -/
def applyEvent (s : MigState) : MigEvent → MigState
  | .removeOld id => { s with old := remove_op_head s.old id }
  | .addNew id => { s with new := add_op_head s.new id }

/-- The side effects of the migration loop of `load`, in program order: for
each id enumerated from the old layout, first `old_store.remove_op_head(&id)`,
then `new_store.add_op_head(&id)`. -/
def migrateEvents (old_heads : List OperationId) : List MigEvent :=
  old_heads.flatMap (fun id => [MigEvent.removeOld id, MigEvent.addNew id])

/-- Run the whole migration loop of `load` from a state. -/
def migrate (s : MigState) : MigState :=
  (migrateEvents (get_op_heads s.old)).foldl applyEvent s

/-- Every state the migration passes through, initial and final included. -/
def migStates (s : MigState) : List MigState :=
  (migrateEvents (get_op_heads s.old)).scanl applyEvent s

/-- Mirror of `SimpleOpHeadsStore::load`: when the subdirectory layout already
exists nothing happens; otherwise the subdirectory is created empty and the
migration loop runs over the flat layout. -/
def load (subdirExists : Bool) (flatDir : Dir) (subDir : Dir) : MigState :=
  if subdirExists then { old := flatDir, new := subDir }
  else migrate { old := flatDir, new := [] }

/-! Concrete instances used by witnesses and counterexamples. -/

/-- A concrete id. -/
def idA : OperationId := [(170 : Byte)]

/-- A concrete id. -/
def idB : OperationId := [(187 : Byte)]

/-- A concrete id for a merge operation. -/
def idM : OperationId := [(204 : Byte)]

/-- A concrete id for a root operation. -/
def idR : OperationId := [(51 : Byte)]

/-- A concrete id. -/
def idX : OperationId := [(17 : Byte)]

/-- A concrete id. -/
def idY : OperationId := [(34 : Byte)]

/-- Metadata whose end timestamp is the given value. -/
def tsAt (n : Int) : OperationMetadata :=
  { end_time := { timestamp := n, tz_offset := 0 } }

/-- A concrete root-like operation. -/
def opB : Operation := ⟨idB, { parents := [], metadata := tsAt 1 }⟩

/-- A concrete operation whose parent is `opB`. -/
def opA : Operation := ⟨idA, { parents := [idB], metadata := tsAt 2 }⟩

/-- A record store holding `opA` and `opB`. -/
def stAB : OpStore := [(idA, opA.data), (idB, opB.data)]

/-- The directory holding the markers of `opA` and `opB`. -/
def dirAB : Dir := [hexEncode idA, hexEncode idB]

/-- A concrete merge operation of `opA` and `opB`. -/
def opM : Operation := ⟨idM, { parents := [idA, idB], metadata := tsAt 4 }⟩

/-- A concrete root operation. -/
def opR : Operation := ⟨idR, { parents := [], metadata := tsAt 0 }⟩

/-- A divergent head on top of `opR` with end timestamp 5. -/
def opX : Operation := ⟨idX, { parents := [idR], metadata := tsAt 5 }⟩

/-- A divergent head on top of `opR` with end timestamp 3. -/
def opY : Operation := ⟨idY, { parents := [idR], metadata := tsAt 3 }⟩

/-- A record store holding `opX`, `opY` and their common ancestor `opR`. -/
def stXYR : OpStore := [(idX, opX.data), (idY, opY.data), (idR, opR.data)]

/-- A directory listing the markers of `opX`, `opY`, `opR` in one order. -/
def dirXYR : Dir := [hexEncode idX, hexEncode idY, hexEncode idR]

/-- The same markers listed in another order. -/
def dirRYX : Dir := [hexEncode idR, hexEncode idY, hexEncode idX]

/-- A topological rank for `stXYR`: the root ranks below its descendants. -/
def rankXYR : OperationId → Nat :=
  fun id => if id = idR then 0 else 1

/-! Helper lemmas about hex encoding and decoding. -/

theorem hexVal_digit : ∀ v : Fin 16, hexVal (hexDigitChar v.val) = some v := by
  decide

theorem hexVal_digitN (n : Nat) (h : n < 16) : hexVal (hexDigitChar n) = some ⟨n, h⟩ :=
  hexVal_digit ⟨n, h⟩

theorem hexDecode_byteHex_append (b : Byte) (rest : FileName) :
    hexDecode (byteHex b.val ++ rest) =
      match hexDecode rest with
      | some bs => some (b :: bs)
      | none => none := by
  have hb := b.isLt
  simp only [byteHex, List.append_eq, List.cons_append, List.nil_append]
  simp only [hexDecode]
  rw [hexVal_digitN (b.val / 16 % 16) (Nat.mod_lt _ (by omega)),
    hexVal_digitN (b.val % 16) (Nat.mod_lt _ (by omega))]
  cases hr : hexDecode rest with
  | none => rfl
  | some bs =>
    have hval : b.val / 16 % 16 * 16 + b.val % 16 = b.val := by omega
    simp [Fin.ext_iff, hval]

theorem hexDecode_hexEncode (id : OperationId) : hexDecode (hexEncode id) = some id := by
  induction id with
  | nil => simp [hexEncode, hexDecode]
  | cons b bs ih =>
    rw [show hexEncode (b :: bs) = byteHex b.val ++ hexEncode bs from by simp [hexEncode]]
    rw [hexDecode_byteHex_append, ih]

theorem hexEncode_inj {a b : OperationId} (h : hexEncode a = hexEncode b) : a = b := by
  have ha := hexDecode_hexEncode a
  rw [h, hexDecode_hexEncode b] at ha
  exact (Option.some_inj.mp ha).symm

/-! Helper lemmas about the directory primitives. -/

theorem getOpHeadsLoop_eq (dir : Dir) :
    ∀ acc : List OperationId, getOpHeadsLoop dir acc = acc ++ dir.filterMap hexDecode := by
  induction dir with
  | nil => intro acc; simp [getOpHeadsLoop]
  | cons name rest ih =>
    intro acc
    cases h : hexDecode name with
    | none => simp [getOpHeadsLoop, h, ih]
    | some id => simp [getOpHeadsLoop, h, ih]

theorem get_op_heads_eq (dir : Dir) : get_op_heads dir = dir.filterMap hexDecode := by
  simp [get_op_heads, getOpHeadsLoop_eq]

theorem mem_get_op_heads (dir : Dir) (id : OperationId) :
    id ∈ get_op_heads dir ↔ ∃ name, name ∈ dir ∧ hexDecode name = some id := by
  rw [get_op_heads_eq]
  exact List.mem_filterMap

theorem mem_add_op_head (dir : Dir) (id : OperationId) (name : FileName) :
    name ∈ add_op_head dir id ↔ name ∈ dir ∨ name = hexEncode id := by
  by_cases h : hexEncode id ∈ dir
  · simp only [add_op_head, if_pos h]
    exact ⟨Or.inl, fun hor => hor.elim (fun hm => hm) (fun e => e ▸ h)⟩
  · simp [add_op_head, if_neg h]

theorem mem_remove_op_head (dir : Dir) (id : OperationId) (name : FileName) :
    name ∈ remove_op_head dir id ↔ name ∈ dir ∧ name ≠ hexEncode id := by
  by_cases h : hexEncode id ∈ dir
  · simp only [remove_op_head, removeFile, if_pos h]
    simp [List.mem_filter]
  · simp only [remove_op_head, removeFile, if_neg h]
    exact ⟨fun hm => ⟨hm, fun e => h (e ▸ hm)⟩, And.left⟩

theorem remove_op_head_absent (dir : Dir) (id : OperationId) (h : hexEncode id ∉ dir) :
    remove_op_head dir id = dir := by
  simp [remove_op_head, removeFile, if_neg h]

theorem mem_foldl_remove (ids : List OperationId) :
    ∀ (dir : Dir) (name : FileName),
      name ∈ ids.foldl remove_op_head dir ↔ name ∈ dir ∧ ∀ id ∈ ids, name ≠ hexEncode id := by
  induction ids with
  | nil => simp
  | cons id rest ih =>
    intro dir name
    simp only [List.foldl_cons]
    rw [ih, mem_remove_op_head]
    simp only [List.forall_mem_cons]
    tauto

/-! C9 -/

/-- C9: `get_op_heads` returns exactly the ids of the directory entries whose
names decode as valid hex; any entry whose name fails to decode — the lock
file included — is skipped without being treated as a head and without raising
an error. -/
theorem C9_get_op_heads (dir : Dir) :
    (∀ id : OperationId, id ∈ get_op_heads dir ↔ ∃ name, name ∈ dir ∧ hexDecode name = some id) ∧
    hexDecode lockFileName = none :=
  ⟨fun id => mem_get_op_heads dir id, by decide⟩

/-! C8 -/

/-- C8: `remove_op_head` never fails — when the marker is already absent the
directory is returned unchanged and no error escapes (the source discards the
`fs::remove_file` result with `.ok()`); it leaves every other marker
unchanged, and after the call the marker for the id is absent. -/
theorem C8_remove_op_head (dir : Dir) (id : OperationId) :
    (hexEncode id ∉ dir → remove_op_head dir id = dir) ∧
    hexEncode id ∉ remove_op_head dir id ∧
    (∀ name : FileName, name ≠ hexEncode id → (name ∈ remove_op_head dir id ↔ name ∈ dir)) := by
  refine ⟨fun h => remove_op_head_absent dir id h, ?_, fun name hne => ?_⟩
  · rw [mem_remove_op_head]; simp
  · rw [mem_remove_op_head]; simp [hne]

/-- Witness for C8 at a concrete directory and id. -/
theorem C8_remove_op_head_witness :
    remove_op_head [hexEncode idA] idB = [hexEncode idA] ∧
    hexEncode idB ∉ remove_op_head [hexEncode idA] idB ∧
    (hexEncode idA ∈ remove_op_head [hexEncode idA] idB ↔ hexEncode idA ∈ [hexEncode idA]) :=
  ⟨(C8_remove_op_head [hexEncode idA] idB).1 (by decide),
   (C8_remove_op_head [hexEncode idA] idB).2.1,
   (C8_remove_op_head [hexEncode idA] idB).2.2 (hexEncode idA) (by decide)⟩

/-! C2 -/

/-- C2: `finish` adds the new operation's id as a head and then removes each of
its parent ids; in particular, for a head set holding exactly the markers of A
and B and a merge operation M with parents [A, B] (M being a fresh operation,
its id differs from both), after `finish(M)` the head set holds exactly M's
marker. -/
theorem C2_finish (dir : Dir) (M : Operation) :
    (∀ name : FileName,
      name ∈ finish dir M ↔
        ((name ∈ dir ∨ name = hexEncode M.id) ∧ ∀ p ∈ M.data.parents, name ≠ hexEncode p)) ∧
    (∀ A B : OperationId, M.data.parents = [A, B] → M.id ≠ A → M.id ≠ B →
      ∀ name : FileName, name ∈ finish [hexEncode A, hexEncode B] M ↔ name = hexEncode M.id) := by
  have hgen : ∀ (d : Dir) (name : FileName),
      name ∈ finish d M ↔
        ((name ∈ d ∨ name = hexEncode M.id) ∧ ∀ p ∈ M.data.parents, name ≠ hexEncode p) := by
    intro d name
    unfold finish
    rw [mem_foldl_remove, mem_add_op_head]
  refine ⟨hgen dir, fun A B hpar hA hB name => ?_⟩
  rw [hgen, hpar]
  constructor
  · rintro ⟨hor, hall⟩
    have hA2 : name ≠ hexEncode A := hall A (by simp)
    have hB2 : name ≠ hexEncode B := hall B (by simp)
    rcases hor with hm | e
    · have : name = hexEncode A ∨ name = hexEncode B := by simpa using hm
      rcases this with rfl | rfl
      · exact absurd rfl hA2
      · exact absurd rfl hB2
    · exact e
  · rintro rfl
    refine ⟨Or.inr rfl, ?_⟩
    intro p hp e
    have : p = A ∨ p = B := by simpa using hp
    rcases this with rfl | rfl
    · exact hA (hexEncode_inj e)
    · exact hB (hexEncode_inj e)

/-- Witness for C2: merging the concrete heads A and B into M leaves exactly
M's marker. -/
theorem C2_finish_witness :
    hexEncode idM ∈ finish [hexEncode idA, hexEncode idB] opM ∧
    hexEncode idA ∉ finish [hexEncode idA, hexEncode idB] opM ∧
    hexEncode idB ∉ finish [hexEncode idA, hexEncode idB] opM := by
  have h := (C2_finish [hexEncode idA, hexEncode idB] opM).2 idA idB rfl (by decide) (by decide)
  refine ⟨(h (hexEncode idM)).mpr rfl, fun hc => ?_, fun hc => ?_⟩
  · exact absurd ((h (hexEncode idA)).mp hc) (by decide)
  · exact absurd ((h (hexEncode idB)).mp hc) (by decide)

/-! C5 -/

/-- C5: when the initial enumeration yields exactly one id, `get_heads`
returns `Single` carrying that id's operation fetched from the record store,
without acquiring the lock. -/
theorem C5_single_fast_path (st : OpStore) (preDir postDir : Dir) (id : OperationId)
    (d : StoreOperation) (h1 : get_op_heads preDir = [id]) (h2 : lookupOp st id = some d) :
    get_heads st preDir postDir =
      { outcome := .single ⟨id, d⟩, dirAfter := preDir, lockAcquired := false } := by
  unfold get_heads
  simp only [h1]
  simp only [h2]

/-- Witness for C5 at a concrete one-marker directory. -/
theorem C5_single_fast_path_witness :
    get_heads stAB [hexEncode idA] [] =
      { outcome := .single ⟨idA, opA.data⟩, dirAfter := [hexEncode idA], lockAcquired := false } :=
  C5_single_fast_path stAB [hexEncode idA] [] idA opA.data (by decide) (by decide)

/-! C6 -/

/-- C6: `get_heads` fails with `NoHeads` exactly when the enumerated head set
is empty — at the check before the lock, or, when multiple heads were first
seen, at the re-check after acquiring the lock; the single pass of the
algorithm performs no internal retry. -/
theorem C6_noheads_iff (st : OpStore) (pre post : Dir) :
    (get_heads st pre post).outcome = .err .noHeads ↔
      (get_op_heads pre = [] ∨ (2 ≤ (get_op_heads pre).length ∧ get_op_heads post = [])) := by
  unfold get_heads
  cases hpre : get_op_heads pre with
  | nil => simp
  | cons a rest =>
    cases rest with
    | nil =>
      cases hl : lookupOp st a <;> simp [hl]
    | cons b rest2 =>
      cases hpost : get_op_heads post with
      | nil => simp
      | cons c rest3 =>
        cases rest3 with
        | nil =>
          cases hl : lookupOp st c <;> simp [hl]
        | cons e rest4 =>
          cases hf : fetchOps st (c :: e :: rest4) with
          | error id => simp [hf]
          | ok ops =>
            simp only [hf, handle_ancestor_ops]
            cases hs : dagWalkHeads st ops with
            | nil => simp
            | cons op rest5 =>
              cases rest5 with
              | nil => simp
              | cons op2 rest6 => simp

/-! C3 — the migration loop of `load`. -/

theorem pair_sublist_migrateEvents (hs : List OperationId) (id : OperationId) (h : id ∈ hs) :
    [MigEvent.removeOld id, MigEvent.addNew id].Sublist (migrateEvents hs) := by
  induction hs with
  | nil => cases h
  | cons a rest ih =>
    rw [show migrateEvents (a :: rest) =
        [MigEvent.removeOld a, MigEvent.addNew a] ++ migrateEvents rest from by
      simp [migrateEvents]]
    rcases List.mem_cons.mp h with rfl | h2
    · exact List.sublist_append_left _ _
    · exact (ih h2).trans (List.sublist_append_right _ _)

theorem new_mono (evs : List MigEvent) :
    ∀ (s : MigState) (name : FileName), name ∈ s.new → name ∈ (evs.foldl applyEvent s).new := by
  induction evs with
  | nil => exact fun s name h => h
  | cons e rest ih =>
    intro s name h
    refine ih _ name ?_
    cases e with
    | removeOld id => exact h
    | addNew id => exact (mem_add_op_head _ _ _).mpr (Or.inl h)

theorem mem_new_after_events (hs : List OperationId) :
    ∀ (s : MigState) (id : OperationId), id ∈ hs →
      hexEncode id ∈ ((migrateEvents hs).foldl applyEvent s).new := by
  induction hs with
  | nil => intro s id h; cases h
  | cons a rest ih =>
    intro s id h
    rw [show migrateEvents (a :: rest) =
        MigEvent.removeOld a :: MigEvent.addNew a :: migrateEvents rest from by
      simp [migrateEvents]]
    simp only [List.foldl_cons]
    rcases List.mem_cons.mp h with rfl | h2
    · exact new_mono _ _ _ ((mem_add_op_head _ _ _).mpr (Or.inr rfl))
    · exact ih _ id h2

/-- Counterexample for C3 at a concrete one-marker old layout: the migration
loop removes the marker from the old layout first and adds it to the new
layout only afterwards, so the state reached after the first step holds the
marker in neither layout. -/
theorem C3_counterexample :
    migrateEvents (get_op_heads [hexEncode idA]) =
      [MigEvent.removeOld idA, MigEvent.addNew idA] ∧
    (migStates { old := [hexEncode idA], new := [] }).get? 1 =
      some { old := [], new := [] } ∧
    hexEncode idA ∉ ({ old := [], new := [] } : MigState).old ∧
    hexEncode idA ∉ ({ old := [], new := [] } : MigState).new := by
  decide

/-- C3 (amended): for every marker found in the old flat layout the migration
performed by `load` first removes it from the old layout and only then adds it
under the new subdirectory layout — so a marker can be absent from both
layouts at an intermediate point — and once the loop completes every id
enumerated from the old layout is present under the new layout. -/
theorem C3_migration_order (old0 : Dir) (id : OperationId) (h : id ∈ get_op_heads old0) :
    [MigEvent.removeOld id, MigEvent.addNew id].Sublist (migrateEvents (get_op_heads old0)) ∧
    hexEncode id ∈ (load false old0 []).new := by
  refine ⟨pair_sublist_migrateEvents _ id h, ?_⟩
  show hexEncode id ∈ (migrate { old := old0, new := [] }).new
  exact mem_new_after_events _ _ id h

/-- Witness for C3 at the concrete one-marker old layout. -/
theorem C3_migration_order_witness :
    [MigEvent.removeOld idA, MigEvent.addNew idA].Sublist
      (migrateEvents (get_op_heads [hexEncode idA])) ∧
    hexEncode idA ∈ (load false [hexEncode idA] []).new :=
  C3_migration_order [hexEncode idA] idA (by decide)

/-! C1 — the ancestor pruner. -/

theorem dedupById_eq_of_nodup :
    ∀ ops : List Operation, (ops.map Operation.id).Nodup → dedupById ops = ops := by
  intro ops
  induction ops with
  | nil => intro _; rfl
  | cons op rest ih =>
    intro h
    rw [List.map_cons, List.nodup_cons] at h
    simp only [dedupById]
    rw [ih h.2]
    rw [show (op :: rest : List Operation) = op :: rest from rfl]
    congr 1
    rw [List.filter_eq_self]
    intro o ho
    simp only [decide_eq_true_eq]
    intro e
    exact h.1 (e ▸ List.mem_map_of_mem Operation.id ho)

/-- C1: `handle_ancestor_ops` keeps exactly the sublist of operations that are
not reachable as an ancestor of any other operation of the list (for a list
with pairwise distinct ids, the only shape the store produces); every id
present in the input but absent from the output has its marker removed from
the directory; and resolving the concrete heads A and B, where B is an
ancestor of A, yields `Single(A)` with B's marker deleted. -/
theorem C1_handle_ancestor_ops :
    (∀ (st : OpStore) (dir : Dir) (ops : List Operation),
      (ops.map Operation.id).Nodup →
      (handle_ancestor_ops st dir ops).1 = ops.filter (fun op => decide (headsPred st ops op))) ∧
    (∀ (st : OpStore) (dir : Dir) (ops : List Operation) (id : OperationId),
      id ∈ ops.map Operation.id → id ∉ (handle_ancestor_ops st dir ops).1.map Operation.id →
      hexEncode id ∉ (handle_ancestor_ops st dir ops).2) ∧
    ((get_heads stAB dirAB dirAB).outcome = .single opA ∧
      hexEncode idB ∉ (get_heads stAB dirAB dirAB).dirAfter) := by
  refine ⟨?_, ?_, by decide⟩
  · intro st dir ops h
    show dagWalkHeads st ops = _
    unfold dagWalkHeads
    rw [dedupById_eq_of_nodup ops h]
  · intro st dir ops id h1 h2
    have h2' : id ∉ (dagWalkHeads st ops).map Operation.id := h2
    show hexEncode id ∉
      ((ops.map Operation.id).filter
          (fun i => decide (i ∉ (dagWalkHeads st ops).map Operation.id))).foldl
        remove_op_head dir
    rw [mem_foldl_remove]
    rintro ⟨_, hall⟩
    refine hall id ?_ rfl
    rw [List.mem_filter]
    exact ⟨h1, decide_eq_true h2'⟩

/-- Witness for C1 at the concrete two-head store where B is an ancestor of
A. -/
theorem C1_handle_ancestor_ops_witness :
    (handle_ancestor_ops stAB dirAB [opA, opB]).1 = [opA] ∧
    hexEncode idB ∉ (handle_ancestor_ops stAB dirAB [opA, opB]).2 := by
  constructor
  · rw [C1_handle_ancestor_ops.1 stAB dirAB [opA, opB] (by decide)]
    decide
  · exact C1_handle_ancestor_ops.2.1 stAB dirAB [opA, opB] idB (by decide) (by decide)

/-! C7 — a head whose record is missing from the record store. -/

theorem fetchOps_error_of_missing (st : OpStore) :
    ∀ (ids : List OperationId) (id : OperationId), id ∈ ids → lookupOp st id = none →
      ∃ e, fetchOps st ids = .error e ∧ e ∈ ids ∧ lookupOp st e = none := by
  intro ids
  induction ids with
  | nil => intro id h; cases h
  | cons a rest ih =>
    intro id h hm
    cases hl : lookupOp st a with
    | none => exact ⟨a, by simp [fetchOps, hl], List.mem_cons_self a rest, hl⟩
    | some d =>
      rcases List.mem_cons.mp h with rfl | h2
      · rw [hl] at hm; cases hm
      · rcases ih id h2 hm with ⟨e, he, hmem, hnone⟩
        refine ⟨e, ?_, List.mem_cons_of_mem _ hmem, hnone⟩
        simp [fetchOps, hl, he]

/-- Counterexample for C7: with a single enumerated head whose record is
missing, the call does not surface a typed error value — the outcome is the
modelled `.unwrap()` panic, not `Err(...)`. -/
theorem C7_counterexample :
    get_op_heads [hexEncode idA] = [idA] ∧
    lookupOp ([] : OpStore) idA = none ∧
    (get_heads ([] : OpStore) [hexEncode idA] [hexEncode idA]).outcome = .panicked idA ∧
    (get_heads ([] : OpStore) [hexEncode idA] [hexEncode idA]).outcome ≠ .err .noHeads := by
  decide

/-- C7 (amended): if an id enumerated from the head set on the path taken
cannot be read from the record store, `get_heads` dies on the spot — modelled
as the `panicked` outcome of the `.unwrap()` — fatal for the current call; the
head is never silently skipped, but no typed error value is returned. -/
theorem C7_missing_record_panics :
    (∀ (st : OpStore) (pre post : Dir) (id : OperationId),
      get_op_heads pre = [id] → lookupOp st id = none →
      (get_heads st pre post).outcome = .panicked id) ∧
    (∀ (st : OpStore) (pre post : Dir) (id : OperationId),
      2 ≤ (get_op_heads pre).length → id ∈ get_op_heads post → lookupOp st id = none →
      ∃ e, (get_heads st pre post).outcome = .panicked e ∧
        e ∈ get_op_heads post ∧ lookupOp st e = none) := by
  constructor
  · intro st pre post id h1 h2
    unfold get_heads
    simp only [h1]
    simp only [h2]
  · intro st pre post id hpre hmem hnone
    have hshape : ∃ a b rest, get_op_heads pre = a :: b :: rest := by
      cases hp : get_op_heads pre with
      | nil => rw [hp] at hpre; simp at hpre
      | cons a rest =>
        cases rest with
        | nil => rw [hp] at hpre; simp at hpre
        | cons b rest2 => exact ⟨a, b, rest2, rfl⟩
    rcases hshape with ⟨a, b, rest, hpre2⟩
    unfold get_heads
    simp only [hpre2]
    rcases hpost : get_op_heads post with _ | ⟨c, _ | ⟨e2, rest4⟩⟩
    · rw [hpost] at hmem; cases hmem
    · have hid : id = c := by rw [hpost] at hmem; simpa using hmem
      subst hid
      simp only [hnone]
      exact ⟨id, rfl, by simp, hnone⟩
    · rcases fetchOps_error_of_missing st (c :: e2 :: rest4) id (hpost ▸ hmem) hnone with
        ⟨e, he, hm2, hn2⟩
      simp only [he]
      exact ⟨e, rfl, hpost ▸ hm2, hn2⟩

/-- Witness for the amended C7 at a concrete store. -/
theorem C7_missing_record_panics_witness :
    (get_heads ([] : OpStore) [hexEncode idB] []).outcome = .panicked idB :=
  C7_missing_record_panics.1 ([] : OpStore) [hexEncode idB] [] idB (by decide) rfl

/-! Sorting lemmas for the final `sort_by_key`. -/

theorem insertByEnd_perm (x : Operation) (l : List Operation) :
    (insertByEnd x l).Perm (x :: l) := by
  induction l with
  | nil => exact List.Perm.refl _
  | cons y ys ih =>
    unfold insertByEnd
    split
    · exact List.Perm.refl _
    · exact (List.Perm.cons y ih).trans (List.Perm.swap x y ys)

theorem sortByEndTime_perm (l : List Operation) : (sortByEndTime l).Perm l := by
  induction l with
  | nil => exact List.Perm.refl _
  | cons x xs ih => exact (insertByEnd_perm x (sortByEndTime xs)).trans (List.Perm.cons x ih)

theorem insertByEnd_sorted (x : Operation) :
    ∀ l : List Operation, l.Pairwise (fun a b => endKey a ≤ endKey b) →
      (insertByEnd x l).Pairwise (fun a b => endKey a ≤ endKey b) := by
  intro l
  induction l with
  | nil => intro _; simp [insertByEnd]
  | cons y ys ih =>
    intro h
    rw [List.pairwise_cons] at h
    unfold insertByEnd
    split
    · rename_i hxy
      rw [List.pairwise_cons]
      refine ⟨?_, List.pairwise_cons.mpr h⟩
      intro b hb
      rcases List.mem_cons.mp hb with rfl | hb2
      · exact hxy
      · exact le_trans hxy (h.1 b hb2)
    · rename_i hxy
      push_neg at hxy
      rw [List.pairwise_cons]
      refine ⟨?_, ih h.2⟩
      intro b hb
      have hb3 := (insertByEnd_perm x ys).mem_iff.mp hb
      rcases List.mem_cons.mp hb3 with rfl | hb2
      · exact le_of_lt hxy
      · exact h.1 b hb2

theorem sortByEndTime_sorted (l : List Operation) :
    (sortByEndTime l).Pairwise (fun a b => endKey a ≤ endKey b) := by
  induction l with
  | nil => simp [sortByEndTime]
  | cons x xs ih => exact insertByEnd_sorted x _ ih

theorem sorted_perm_distinct_eq :
    ∀ l1 l2 : List Operation, l1.Perm l2 →
      l1.Pairwise (fun a b => endKey a ≤ endKey b) →
      l2.Pairwise (fun a b => endKey a ≤ endKey b) →
      l1.Pairwise (fun a b => endKey a ≠ endKey b) →
      l1 = l2 := by
  intro l1
  induction l1 with
  | nil =>
    intro l2 hp _ _ _
    exact (List.perm_nil.mp hp.symm).symm
  | cons a t1 ih =>
    intro l2 hp hs1 hs2 hd
    cases l2 with
    | nil => exact absurd (List.perm_nil.mp hp) (by simp)
    | cons b t2 =>
      by_cases hab : a = b
      · subst hab
        have hp2 : t1.Perm t2 := hp.cons_inv
        rw [ih t2 hp2 (List.pairwise_cons.mp hs1).2 (List.pairwise_cons.mp hs2).2
          (List.pairwise_cons.mp hd).2]
      · have ha : a ∈ t2 := by
          have := hp.mem_iff.mp (List.mem_cons_self a t1)
          rcases List.mem_cons.mp this with h | h
          · exact absurd h hab
          · exact h
        have hb : b ∈ t1 := by
          have := hp.mem_iff.mpr (List.mem_cons_self b t2)
          rcases List.mem_cons.mp this with h | h
          · exact absurd h.symm hab
          · exact h
        have h1 : endKey a ≤ endKey b := (List.pairwise_cons.mp hs1).1 b hb
        have h2 : endKey b ≤ endKey a := (List.pairwise_cons.mp hs2).1 a ha
        have hne : endKey a ≠ endKey b := (List.pairwise_cons.mp hd).1 b hb
        exact absurd (le_antisymm h1 h2) hne

/-! Deduplication and permutation lemmas for the DAG walk. -/

theorem dedupById_subset :
    ∀ (l : List Operation) (x : Operation), x ∈ dedupById l → x ∈ l := by
  intro l
  induction l with
  | nil => intro x h; cases h
  | cons op rest ih =>
    intro x h
    simp only [dedupById] at h
    rcases List.mem_cons.mp h with rfl | h2
    · exact List.mem_cons_self _ _
    · exact List.mem_cons_of_mem _ (ih x (List.mem_of_mem_filter h2))

theorem mem_dedupById_of_det :
    ∀ l : List Operation, (∀ a ∈ l, ∀ b ∈ l, a.id = b.id → a = b) →
      ∀ x ∈ l, x ∈ dedupById l := by
  intro l
  induction l with
  | nil => intro _ x h; cases h
  | cons op rest ih =>
    intro hdet x h
    simp only [dedupById]
    rcases List.mem_cons.mp h with rfl | h2
    · exact List.mem_cons_self _ _
    · by_cases he : x.id = op.id
      · have hx : x = op := hdet x (List.mem_cons_of_mem _ h2) op (List.mem_cons_self _ _) he
        rw [hx]
        exact List.mem_cons_self _ _
      · refine List.mem_cons_of_mem _ ?_
        rw [List.mem_filter]
        have hdet2 : ∀ a ∈ rest, ∀ b ∈ rest, a.id = b.id → a = b :=
          fun a ha b hb => hdet a (List.mem_cons_of_mem _ ha) b (List.mem_cons_of_mem _ hb)
        exact ⟨ih hdet2 x h2, decide_eq_true he⟩

theorem dedupById_id_nodup :
    ∀ l : List Operation, (dedupById l).Pairwise (fun a b => a.id ≠ b.id) := by
  intro l
  induction l with
  | nil => simp [dedupById]
  | cons op rest ih =>
    simp only [dedupById]
    rw [List.pairwise_cons]
    constructor
    · intro b hb
      have hbne : b.id ≠ op.id := of_decide_eq_true (List.mem_filter.mp hb).2
      exact fun e => hbne e.symm
    · exact List.Pairwise.sublist (List.filter_sublist _) ih

theorem dedupById_nodup (l : List Operation) : (dedupById l).Nodup :=
  (dedupById_id_nodup l).imp (fun h e => h (congrArg Operation.id e))

theorem dedupById_perm_of_perm (l1 l2 : List Operation) (hp : l1.Perm l2)
    (hdet : ∀ a ∈ l1, ∀ b ∈ l1, a.id = b.id → a = b) :
    (dedupById l1).Perm (dedupById l2) := by
  have hdet2 : ∀ a ∈ l2, ∀ b ∈ l2, a.id = b.id → a = b := fun a ha b hb =>
    hdet a (hp.mem_iff.mpr ha) b (hp.mem_iff.mpr hb)
  rw [List.perm_ext_iff_of_nodup (dedupById_nodup l1) (dedupById_nodup l2)]
  intro x
  constructor
  · intro h
    exact mem_dedupById_of_det l2 hdet2 x (hp.mem_iff.mp (dedupById_subset l1 x h))
  · intro h
    exact mem_dedupById_of_det l1 hdet x (hp.mem_iff.mpr (dedupById_subset l2 x h))

theorem dagWalkHeads_perm (st : OpStore) (l1 l2 : List Operation) (hp : l1.Perm l2)
    (hdet : ∀ a ∈ l1, ∀ b ∈ l1, a.id = b.id → a = b) :
    (dagWalkHeads st l1).Perm (dagWalkHeads st l2) := by
  have hu : (dedupById l1).Perm (dedupById l2) := dedupById_perm_of_perm l1 l2 hp hdet
  unfold dagWalkHeads
  have hcongr : (dedupById l2).filter (fun op => decide (headsPred st (dedupById l1) op)) =
      (dedupById l2).filter (fun op => decide (headsPred st (dedupById l2) op)) := by
    apply List.filter_congr
    intro op _
    apply decide_eq_decide.mpr
    unfold headsPred
    constructor
    · intro h other hother
      exact h other (hu.mem_iff.mpr hother)
    · intro h other hother
      exact h other (hu.mem_iff.mp hother)
  rw [← hcongr]
  exact List.Perm.filter _ hu

/-! Shape of a successful bulk fetch. -/

theorem fetchOps_ok_eq (st : OpStore) :
    ∀ (ids : List OperationId) (ops : List Operation), fetchOps st ids = .ok ops →
      ops = ids.filterMap (fun id => (lookupOp st id).map (fun d => Operation.mk id d)) := by
  intro ids
  induction ids with
  | nil =>
    intro ops h
    simp only [fetchOps] at h
    cases h
    rfl
  | cons a rest ih =>
    intro ops h
    simp only [fetchOps] at h
    cases hl : lookupOp st a with
    | none => rw [hl] at h; cases h
    | some d =>
      rw [hl] at h
      cases hf : fetchOps st rest with
      | error e => rw [hf] at h; cases h
      | ok ops2 =>
        rw [hf] at h
        cases h
        rw [List.filterMap_cons, hl]
        simp only [Option.map_some']
        rw [← ih ops2 hf]

theorem fetchOps_ok_length (st : OpStore) :
    ∀ (ids : List OperationId) (ops : List Operation), fetchOps st ids = .ok ops →
      ops.length = ids.length := by
  intro ids
  induction ids with
  | nil =>
    intro ops h
    simp only [fetchOps] at h
    cases h
    rfl
  | cons a rest ih =>
    intro ops h
    simp only [fetchOps] at h
    cases hl : lookupOp st a with
    | none => rw [hl] at h; cases h
    | some d =>
      rw [hl] at h
      cases hf : fetchOps st rest with
      | error e => rw [hf] at h; cases h
      | ok ops2 =>
        rw [hf] at h
        cases h
        simp [ih ops2 hf]

theorem filterMap_fetch_det (st : OpStore) (ids : List OperationId) :
    ∀ a ∈ ids.filterMap (fun id => (lookupOp st id).map (fun d => Operation.mk id d)),
      ∀ b ∈ ids.filterMap (fun id => (lookupOp st id).map (fun d => Operation.mk id d)),
        a.id = b.id → a = b := by
  intro a ha b hb he
  rcases List.mem_filterMap.mp ha with ⟨ia, _, hfa⟩
  rcases List.mem_filterMap.mp hb with ⟨ib, _, hfb⟩
  cases hla : lookupOp st ia with
  | none => rw [hla] at hfa; cases hfa
  | some da =>
    rw [hla] at hfa
    cases hlb : lookupOp st ib with
    | none => rw [hlb] at hfb; cases hfb
    | some db =>
      rw [hlb] at hfb
      simp only [Option.map_some', Option.some_inj] at hfa hfb
      rw [← hfa, ← hfb]
      rw [← hfa, ← hfb] at he
      simp only at he
      rw [he] at hla
      rw [hla] at hlb
      cases hlb
      rw [he]

/-! Inversion of an Unresolved outcome. -/

theorem get_heads_unresolved_inv (st : OpStore) (pre post : Dir) (l : List Operation)
    (h : (get_heads st pre post).outcome = .unresolved l) :
    ∃ ops, fetchOps st (get_op_heads post) = .ok ops ∧
      2 ≤ ops.length ∧
      (dagWalkHeads st ops).length ≠ 1 ∧
      l = sortByEndTime (dagWalkHeads st ops) := by
  unfold get_heads at h
  cases hpre : get_op_heads pre with
  | nil => simp [hpre] at h
  | cons a rest =>
    cases rest with
    | nil =>
      cases hl : lookupOp st a with
      | none => simp [hpre, hl] at h
      | some d => simp [hpre, hl] at h
    | cons b rest2 =>
      simp only [hpre] at h
      cases hpost : get_op_heads post with
      | nil => simp [hpost] at h
      | cons c rest3 =>
        cases rest3 with
        | nil =>
          cases hl : lookupOp st c with
          | none => simp [hpost, hl] at h
          | some d => simp [hpost, hl] at h
        | cons e rest4 =>
          simp only [hpost] at h
          cases hf : fetchOps st (c :: e :: rest4) with
          | error i => simp [hf] at h
          | ok ops =>
            simp only [hf, handle_ancestor_ops] at h
            refine ⟨ops, rfl, ?_, ?_, ?_⟩
            · rw [fetchOps_ok_length st _ ops hf]
              simp only [List.length_cons]
              omega
            · cases hs : dagWalkHeads st ops with
              | nil => simp
              | cons op rest5 =>
                cases rest5 with
                | nil => simp only [hs] at h; simp at h
                | cons op2 rest6 =>
                  simp only [List.length_cons]
                  omega
            · cases hs : dagWalkHeads st ops with
              | nil =>
                simp only [hs] at h
                simp at h
                exact h.symm
              | cons op rest5 =>
                cases rest5 with
                | nil => simp only [hs] at h; simp at h
                | cons op2 rest6 =>
                  simp only [hs] at h
                  simp at h
                  exact h.symm

/-! C4 — deterministic ordering of a divergent head set. -/

/-- C4: whenever `get_heads` returns Unresolved, the carried operations are in
ascending end-timestamp order; and for a fixed set of divergent heads with
pairwise distinct end timestamps, resolutions that enumerate the same
directory contents in any order return the identical list. -/
theorem C4_deterministic_order :
    (∀ (st : OpStore) (pre post : Dir) (l : List Operation),
      (get_heads st pre post).outcome = .unresolved l →
      l.Pairwise (fun a b => endKey a ≤ endKey b)) ∧
    (∀ (st : OpStore) (pre1 post1 pre2 post2 : Dir) (l1 l2 : List Operation),
      (get_heads st pre1 post1).outcome = .unresolved l1 →
      (get_heads st pre2 post2).outcome = .unresolved l2 →
      post1.Perm post2 →
      l1.Pairwise (fun a b => endKey a ≠ endKey b) →
      l1 = l2) := by
  constructor
  · intro st pre post l h
    rcases get_heads_unresolved_inv st pre post l h with ⟨ops, _, _, _, hl⟩
    rw [hl]
    exact sortByEndTime_sorted _
  · intro st pre1 post1 pre2 post2 l1 l2 h1 h2 hperm hdist
    rcases get_heads_unresolved_inv st pre1 post1 l1 h1 with ⟨ops1, hf1, _, _, hl1⟩
    rcases get_heads_unresolved_inv st pre2 post2 l2 h2 with ⟨ops2, hf2, _, _, hl2⟩
    have hids : (get_op_heads post1).Perm (get_op_heads post2) := by
      rw [get_op_heads_eq, get_op_heads_eq]
      exact hperm.filterMap _
    have e1 := fetchOps_ok_eq st _ ops1 hf1
    have e2 := fetchOps_ok_eq st _ ops2 hf2
    have hops : ops1.Perm ops2 := by
      rw [e1, e2]
      exact hids.filterMap _
    have hdet : ∀ a ∈ ops1, ∀ b ∈ ops1, a.id = b.id → a = b := by
      rw [e1]
      exact filterMap_fetch_det st _
    have hsurv : (dagWalkHeads st ops1).Perm (dagWalkHeads st ops2) :=
      dagWalkHeads_perm st ops1 ops2 hops hdet
    have hl12 : l1.Perm l2 := by
      rw [hl1, hl2]
      exact (sortByEndTime_perm _).trans (hsurv.trans (sortByEndTime_perm _).symm)
    refine sorted_perm_distinct_eq l1 l2 hl12 ?_ ?_ hdist
    · rw [hl1]
      exact sortByEndTime_sorted _
    · rw [hl2]
      exact sortByEndTime_sorted _

/-- Witness for C4 at the concrete divergent store: two enumeration orders of
the same three markers resolve to the identical ascending list. -/
theorem C4_deterministic_order_witness :
    ([opY, opX] : List Operation).Pairwise (fun a b => endKey a ≤ endKey b) ∧
    ([opY, opX] : List Operation) = [opY, opX] := by
  constructor
  · exact C4_deterministic_order.1 stXYR dirXYR dirXYR [opY, opX] (by decide)
  · exact C4_deterministic_order.2 stXYR dirXYR dirXYR dirRYX dirRYX [opY, opX] [opY, opX]
      (by decide) (by decide) (by decide) (by decide)

/-! C10 — an Unresolved outcome never carries fewer than two operations. -/

theorem lookupOp_mem :
    ∀ (st : OpStore) (id : OperationId) (d : StoreOperation),
      lookupOp st id = some d → (id, d) ∈ st := by
  intro st
  induction st with
  | nil => intro id d h; cases h
  | cons e rest ih =>
    intro id d h
    rcases e with ⟨k, v⟩
    simp only [lookupOp] at h
    split at h
    · rename_i heq
      cases h
      rw [← heq]
      exact List.mem_cons_self _ _
    · exact List.mem_cons_of_mem _ (ih id d h)

theorem rank_expand (st : OpStore) (rank : OperationId → Nat)
    (hrank : ∀ e ∈ st, ∀ p ∈ e.2.parents, rank p < rank e.1)
    (frontier : List OperationId) (a : OperationId)
    (h : a ∈ expandFrontier st frontier) : ∃ f ∈ frontier, rank a < rank f := by
  rcases List.mem_flatMap.mp h with ⟨f, hf, hpa⟩
  refine ⟨f, hf, ?_⟩
  unfold parentsOf at hpa
  cases hl : lookupOp st f with
  | none => simp only [hl] at hpa; cases hpa
  | some d =>
    simp only [hl] at hpa
    exact hrank (f, d) (lookupOp_mem st f d hl) a hpa

theorem rank_ancestorsFuel (st : OpStore) (rank : OperationId → Nat)
    (hrank : ∀ e ∈ st, ∀ p ∈ e.2.parents, rank p < rank e.1) :
    ∀ (n : Nat) (frontier : List OperationId) (a : OperationId),
      a ∈ ancestorsFuel st n frontier → ∃ f ∈ frontier, rank a < rank f := by
  intro n
  induction n with
  | zero => intro frontier a h; cases h
  | succ m ih =>
    intro frontier a h
    simp only [ancestorsFuel] at h
    rcases List.mem_append.mp h with h1 | h2
    · exact rank_expand st rank hrank frontier a h1
    · rcases ih _ a h2 with ⟨g, hg, hlt⟩
      rcases rank_expand st rank hrank frontier g hg with ⟨f, hf, hlt2⟩
      exact ⟨f, hf, lt_trans hlt hlt2⟩

theorem exists_rank_max (rank : OperationId → Nat) :
    ∀ l : List Operation, l ≠ [] → ∃ x ∈ l, ∀ y ∈ l, rank y.id ≤ rank x.id := by
  intro l
  induction l with
  | nil => intro h; exact absurd rfl h
  | cons a rest ih =>
    intro _
    cases rest with
    | nil =>
      refine ⟨a, List.mem_cons_self _ _, ?_⟩
      intro y hy
      rcases List.mem_cons.mp hy with rfl | h2
      · exact le_refl _
      · cases h2
    | cons b rest2 =>
      rcases ih (by simp) with ⟨x, hx, hmax⟩
      by_cases hc : rank a.id ≤ rank x.id
      · refine ⟨x, List.mem_cons_of_mem _ hx, ?_⟩
        intro y hy
        rcases List.mem_cons.mp hy with rfl | h2
        · exact hc
        · exact hmax y h2
      · push_neg at hc
        refine ⟨a, List.mem_cons_self _ _, ?_⟩
        intro y hy
        rcases List.mem_cons.mp hy with rfl | h2
        · exact le_refl _
        · exact le_trans (hmax y h2) (le_of_lt hc)

theorem dagWalkHeads_ne_nil (st : OpStore) (rank : OperationId → Nat)
    (hrank : ∀ e ∈ st, ∀ p ∈ e.2.parents, rank p < rank e.1)
    (ops : List Operation) (hne : ops ≠ []) :
    dagWalkHeads st ops ≠ [] := by
  have hu : dedupById ops ≠ [] := by
    cases ops with
    | nil => exact absurd rfl hne
    | cons op rest => simp [dedupById]
  rcases exists_rank_max rank (dedupById ops) hu with ⟨x, hx, hmax⟩
  have hpred : headsPred st (dedupById ops) x := by
    intro other hother hne2 hanc
    rcases rank_ancestorsFuel st rank hrank _ [other.id] x.id hanc with ⟨f, hf, hlt⟩
    have hfo : f = other.id := by simpa using hf
    rw [hfo] at hlt
    have hle := hmax other hother
    omega
  intro hnil
  have hmem : x ∈ dagWalkHeads st ops := by
    unfold dagWalkHeads
    rw [List.mem_filter]
    exact ⟨hx, decide_eq_true hpred⟩
  rw [hnil] at hmem
  cases hmem

/-- C10: whenever `get_heads` returns Unresolved, the carried list holds at
least two operations — provided the record store is acyclic, witnessed by a
topological rank under which every stored operation outranks its parents (the
only shape a content-addressed operation DAG can take). -/
theorem C10_unresolved_at_least_two (st : OpStore) (pre post : Dir) (l : List Operation)
    (rank : OperationId → Nat)
    (hrank : ∀ e ∈ st, ∀ p ∈ e.2.parents, rank p < rank e.1)
    (h : (get_heads st pre post).outcome = .unresolved l) :
    2 ≤ l.length := by
  rcases get_heads_unresolved_inv st pre post l h with ⟨ops, _, hlen, hone, hl⟩
  have hne : ops ≠ [] := by
    intro e
    rw [e] at hlen
    simp at hlen
  have hsne := dagWalkHeads_ne_nil st rank hrank ops hne
  have hlen2 : l.length = (dagWalkHeads st ops).length := by
    rw [hl]
    exact (sortByEndTime_perm _).length_eq
  rw [hlen2]
  cases hcase : dagWalkHeads st ops with
  | nil => exact absurd hcase hsne
  | cons a rest =>
    cases rest with
    | nil => exact absurd (by rw [hcase]; rfl) hone
    | cons b r =>
      simp only [List.length_cons]
      omega

/-- Witness for C10 at the concrete divergent store, with its concrete
topological rank. -/
theorem C10_unresolved_at_least_two_witness : 2 ≤ ([opY, opX] : List Operation).length :=
  C10_unresolved_at_least_two stXYR dirXYR dirXYR [opY, opX] rankXYR (by decide) (by decide)

end SimpleOpHeads
